import Mathlib

/-!
Verification of the Neural-Network repository (tensor.h, graph.h).

The tensor engine is embedded at the buffer level: a `Tensor` is a 5-axis
shape together with a flat buffer, exactly as in `tensor.h` (`Shape shape;
T *data;`).  Machine doubles are modelled as exact rationals (reals for the
transcendental `sigmoid`), buffers as total functions `Nat → α` whose values
beyond `length()` are junk, mirroring the uninitialised C++ allocation.
`foreach_assign` is modelled as the literal nested loop: a left fold of
single-cell writes over the row-major enumeration of all index tuples.
-/

namespace NNVerify

/-- The 5-tuple index `(sample, frame, width, height, channel)` used by all
`foreach` loops in `tensor.h`, as a function out of `Fin 5`. -/
def mk5 (i j k l m : Nat) : Fin 5 → Nat := fun a =>
  match a with
  | ⟨0, _⟩ => i
  | ⟨1, _⟩ => j
  | ⟨2, _⟩ => k
  | ⟨3, _⟩ => l
  | ⟨4, _⟩ => m

/-- Row-major linearisation `Shape::sub2ind(i0..i4)`: stride of axis 4 is 1. -/
def sub2ind (s : Fin 5 → Nat) (t : Fin 5 → Nat) : Nat :=
  (((t 0 * s 1 + t 1) * s 2 + t 2) * s 3 + t 3) * s 4 + t 4

/-- `Shape::size()`: the product of the five dimensions. -/
def scount (s : Fin 5 → Nat) : Nat :=
  s 0 * (s 1 * (s 2 * (s 3 * s 4)))

/-- An index tuple is in range for a shape. -/
def inRange (s : Fin 5 → Nat) (t : Fin 5 → Nat) : Prop :=
  ∀ a : Fin 5, t a < s a

instance (s t : Fin 5 → Nat) : Decidable (inRange s t) := by
  unfold inRange; infer_instance

/-- The row-major enumeration of all in-range index tuples, in the exact
order of the five nested `for` loops of `Tensor::foreach`. -/
def tuples (s : Fin 5 → Nat) : List (Fin 5 → Nat) :=
  (List.range (s 0)).flatMap fun i =>
  (List.range (s 1)).flatMap fun j =>
  (List.range (s 2)).flatMap fun k =>
  (List.range (s 3)).flatMap fun l =>
  (List.range (s 4)).map fun m => mk5 i j k l m

theorem mk5_apply (i j k l m : Nat) :
    mk5 i j k l m 0 = i ∧ mk5 i j k l m 1 = j ∧ mk5 i j k l m 2 = k ∧
    mk5 i j k l m 3 = l ∧ mk5 i j k l m 4 = m :=
  ⟨rfl, rfl, rfl, rfl, rfl⟩

theorem mk5_eta (t : Fin 5 → Nat) : mk5 (t 0) (t 1) (t 2) (t 3) (t 4) = t := by
  funext a
  match a with
  | ⟨0, _⟩ => rfl
  | ⟨1, _⟩ => rfl
  | ⟨2, _⟩ => rfl
  | ⟨3, _⟩ => rfl
  | ⟨4, _⟩ => rfl

theorem sub2ind_mk5 (s : Fin 5 → Nat) (i j k l m : Nat) :
    sub2ind s (mk5 i j k l m) = (((i * s 1 + j) * s 2 + k) * s 3 + l) * s 4 + m := rfl

/-- Binding `range n` over blocks `range' (c + t*m) m` tiles `range' c (n*m)`. -/
theorem flatMap_range_range' (n m c : Nat) :
    (List.range n).flatMap (fun t => List.range' (c + t * m) m) = List.range' c (n * m) := by
  induction n with
  | zero => simp
  | succ n ih =>
    rw [List.range_succ, List.flatMap_append, ih, Nat.succ_mul, Nat.add_comm (n * m) m]
    simp only [List.flatMap_cons, List.flatMap_nil, List.append_nil]
    exact List.range'_append_1 c (n * m) m

theorem map_add_range (c n : Nat) :
    (List.range n).map (fun m => c + m) = List.range' c n := by
  rw [List.range'_eq_map_range]

/-- The row-major tuple enumeration hits each linear index exactly once, in
order: mapping `sub2ind` over `tuples s` gives `range (scount s)`. -/
theorem map_sub2ind_tuples (s : Fin 5 → Nat) :
    (tuples s).map (sub2ind s) = List.range (scount s) := by
  unfold tuples
  rw [List.map_flatMap]
  rw [List.range_eq_range' (scount s)]
  have h0 : scount s = s 0 * (s 1 * (s 2 * (s 3 * s 4))) := rfl
  rw [h0, ← flatMap_range_range' (s 0) (s 1 * (s 2 * (s 3 * s 4))) 0]
  refine List.flatMap_congr fun i _ => ?_
  rw [List.map_flatMap]
  have h1 : 0 + i * (s 1 * (s 2 * (s 3 * s 4))) = i * (s 1 * (s 2 * (s 3 * s 4))) := by omega
  rw [h1, ← flatMap_range_range' (s 1) (s 2 * (s 3 * s 4)) (i * (s 1 * (s 2 * (s 3 * s 4))))]
  refine List.flatMap_congr fun j _ => ?_
  rw [List.map_flatMap]
  have h2 : i * (s 1 * (s 2 * (s 3 * s 4))) + j * (s 2 * (s 3 * s 4))
      = (i * s 1 + j) * (s 2 * (s 3 * s 4)) := by ring
  rw [h2, ← flatMap_range_range' (s 2) (s 3 * s 4) ((i * s 1 + j) * (s 2 * (s 3 * s 4)))]
  refine List.flatMap_congr fun k _ => ?_
  rw [List.map_flatMap]
  have h3 : (i * s 1 + j) * (s 2 * (s 3 * s 4)) + k * (s 3 * s 4)
      = ((i * s 1 + j) * s 2 + k) * (s 3 * s 4) := by ring
  rw [h3, ← flatMap_range_range' (s 3) (s 4) (((i * s 1 + j) * s 2 + k) * (s 3 * s 4))]
  refine List.flatMap_congr fun l _ => ?_
  rw [List.map_map]
  have h4 : ((i * s 1 + j) * s 2 + k) * (s 3 * s 4) + l * s 4
      = (((i * s 1 + j) * s 2 + k) * s 3 + l) * s 4 := by ring
  rw [h4, ← map_add_range ((((i * s 1 + j) * s 2 + k) * s 3 + l) * s 4) (s 4)]
  refine List.map_congr_left fun m _ => ?_
  simp [Function.comp, sub2ind_mk5]

theorem mem_tuples {s t : Fin 5 → Nat} : t ∈ tuples s ↔ inRange s t := by
  unfold tuples
  simp only [List.mem_flatMap, List.mem_map, List.mem_range]
  constructor
  · rintro ⟨i, hi, j, hj, k, hk, l, hl, m, hm, rfl⟩
    intro a
    match a with
    | ⟨0, _⟩ => exact hi
    | ⟨1, _⟩ => exact hj
    | ⟨2, _⟩ => exact hk
    | ⟨3, _⟩ => exact hl
    | ⟨4, _⟩ => exact hm
  · intro h
    exact ⟨t 0, h 0, t 1, h 1, t 2, h 2, t 3, h 3, t 4, h 4, mk5_eta t⟩

theorem sub2ind_lt_scount {s t : Fin 5 → Nat} (h : inRange s t) :
    sub2ind s t < scount s := by
  have hmem : sub2ind s t ∈ (tuples s).map (sub2ind s) :=
    List.mem_map_of_mem (sub2ind s) (mem_tuples.2 h)
  rw [map_sub2ind_tuples] at hmem
  exact List.mem_range.1 hmem

theorem exists_tuple_of_lt {s : Fin 5 → Nat} {idx : Nat} (h : idx < scount s) :
    ∃ t, inRange s t ∧ sub2ind s t = idx := by
  have hmem : idx ∈ (tuples s).map (sub2ind s) := by
    rw [map_sub2ind_tuples]; exact List.mem_range.2 h
  rcases List.mem_map.1 hmem with ⟨t, ht, heq⟩
  exact ⟨t, mem_tuples.1 ht, heq⟩

/-- Left fold of single-cell writes: a key not written is preserved. -/
theorem foldl_update_not_mem {κ α β : Type _} [DecidableEq κ]
    (key : β → κ) (val : β → α) :
    ∀ (l : List β) (g : κ → α) (k : κ), k ∉ l.map key →
      (l.foldl (fun g b => Function.update g (key b) (val b)) g) k = g k := by
  intro l
  induction l with
  | nil => intro g k _; rfl
  | cons x xs ih =>
    intro g k hk
    simp only [List.map_cons, List.mem_cons, not_or] at hk
    simp only [List.foldl_cons]
    rw [ih _ k hk.2]
    exact Function.update_noteq hk.1 (val x) g

/-- Left fold of single-cell writes with pairwise-distinct keys: the cell of
a written element holds its value. -/
theorem foldl_update_mem {κ α β : Type _} [DecidableEq κ]
    (key : β → κ) (val : β → α) :
    ∀ (l : List β) (g : κ → α), (l.map key).Nodup → ∀ b ∈ l,
      (l.foldl (fun g b => Function.update g (key b) (val b)) g) (key b) = val b := by
  intro l
  induction l with
  | nil => intro g _ b hb; exact absurd hb (List.not_mem_nil b)
  | cons x xs ih =>
    intro g hnd b hb
    simp only [List.map_cons, List.nodup_cons] at hnd
    simp only [List.foldl_cons]
    rcases List.mem_cons.1 hb with rfl | hmem
    · rw [foldl_update_not_mem key val xs _ (key b) hnd.1]
      exact Function.update_same (key b) (val b) g
    · exact ih _ hnd.2 b hmem

/-- `Tensor<T>`: a 5-axis shape plus the flat buffer (`Shape shape; T *data;`).
The buffer is a total function; values at linear indices `≥ length()` are
junk, mirroring memory past the allocation. -/
structure Tensor (α : Type) where
  shape : Fin 5 → Nat
  buf : Nat → α

namespace Tensor

/-- `Tensor::length()`. -/
def length (t : Tensor α) : Nat := scount t.shape

/-- `Tensor<T> out(shape)`: allocation, buffer uninitialised (junk value). -/
def alloc [Inhabited α] (s : Fin 5 → Nat) : Tensor α := ⟨s, fun _ => default⟩

/-- `Tensor::at(i,j,k,l,m)`: read `data[shape.sub2ind(i,j,k,l,m)]`. -/
def atT (t : Tensor α) (tp : Fin 5 → Nat) : α := t.buf (sub2ind t.shape tp)

/-- `Tensor::set(value, i,j,k,l,m)`: write `data[shape.sub2ind(...)] = value`. -/
def setT (t : Tensor α) (tp : Fin 5 → Nat) (v : α) : Tensor α :=
  ⟨t.shape, Function.update t.buf (sub2ind t.shape tp) v⟩

/-- `Tensor::foreach_assign(func)`: the five nested loops of `foreach`, each
iteration writing `data[sub2ind(i,j,k,l,m)] = func(i,j,k,l,m)`. -/
def foreachAssign (t : Tensor α) (f : (Fin 5 → Nat) → α) : Tensor α :=
  ⟨t.shape,
   (tuples t.shape).foldl (fun b tp => Function.update b (sub2ind t.shape tp) (f tp)) t.buf⟩

/-- `Tensor::foreach_elem_assign(func)`: the flat loop
`for i < length: data[i] = func(i)`. -/
def foreachElemAssign (t : Tensor α) (f : Nat → α) : Tensor α :=
  ⟨t.shape, (List.range (scount t.shape)).foldl (fun b i => Function.update b i (f i)) t.buf⟩

/-- `Tensor::zeros(shape)`: allocate then assign 0 to every element. -/
def zerosT [Inhabited α] [Zero α] (s : Fin 5 → Nat) : Tensor α :=
  foreachElemAssign (alloc s) fun _ => 0

/-- `Tensor::__foreach_elem_assign_(func)`: fresh output tensor with
`out.data[i] = func(this->data[i])` for every linear index. -/
def elemAssignNew [Inhabited α] (t : Tensor α) (g : α → α) : Tensor α :=
  foreachElemAssign (alloc t.shape) fun i => g (t.buf i)

/-- Scalar `operator/ (T b)`. -/
def scalarDiv [Inhabited α] [Div α] (t : Tensor α) (b : α) : Tensor α :=
  elemAssignNew t fun x => x / b

/-- The axis-search loop of `__foreach_assign_`:
`for i in 0..4: if shape[i] != m_shape[i] { axis = i; break; }`. -/
def firstDiffAxis (s m : Fin 5 → Nat) : Option (Fin 5) :=
  (List.finRange 5).find? fun i => s i != m i

/-- `Tensor::__foreach_assign_(tensor, func)`: the output takes the
argument's shape `m_shape`; on the first differing axis (if any) the
argument is read at index 0, per the `switch (axis)` cases. -/
def fea [Inhabited α] (t other : Tensor α) (f : α → α → α) : Tensor α :=
  let out : Tensor α := alloc other.shape
  match firstDiffAxis t.shape other.shape with
  | some ⟨0, _⟩ => foreachAssign out fun tp => f (t.atT tp) (other.atT (Function.update tp 0 0))
  | some ⟨1, _⟩ => foreachAssign out fun tp => f (t.atT tp) (other.atT (Function.update tp 1 0))
  | some ⟨2, _⟩ => foreachAssign out fun tp => f (t.atT tp) (other.atT (Function.update tp 2 0))
  | some ⟨3, _⟩ => foreachAssign out fun tp => f (t.atT tp) (other.atT (Function.update tp 3 0))
  | some ⟨4, _⟩ => foreachAssign out fun tp => f (t.atT tp) (other.atT (Function.update tp 4 0))
  | some ⟨n + 5, h⟩ => absurd h (by omega)
  | none => foreachAssign out fun tp => f (t.atT tp) (other.atT tp)

/-- `Tensor::operator+(Tensor&)`. -/
def addT (t other : Tensor ℚ) : Tensor ℚ := fea t other fun a b => a + b

/-- `Tensor::operator-(Tensor&)`. -/
def subT (t other : Tensor ℚ) : Tensor ℚ := fea t other fun a b => a - b

/-- `Tensor::operator*(Tensor&)`. -/
def mulT (t other : Tensor ℚ) : Tensor ℚ := fea t other fun a b => a * b

/-- `Tensor::operator/(Tensor&)`. -/
def divT (t other : Tensor ℚ) : Tensor ℚ := fea t other fun a b => a / b

/-- One `case` body of `Tensor::reduce_sum`: iterate the input's tuples and
accumulate into the output cell with the given axis pinned to 0
(`out.set(out.at(..0..) + this->at(...), ..0..)`). -/
def rsCase [Zero α] [Add α] (t : Tensor α) (axis : Fin 5) (out : Tensor α) : Tensor α :=
  (tuples t.shape).foldl
    (fun o tp =>
      o.setT (Function.update tp axis 0) (o.atT (Function.update tp axis 0) + t.atT tp))
    out

/-- `Tensor::reduce_sum(axis)`.  `case 0` has no `break` in the source, so
axis 0 runs the axis-0 accumulation and then falls through into `case 1`. -/
def reduceSum [Inhabited α] [Zero α] [Add α] (t : Tensor α) (axis : Fin 5) : Tensor α :=
  let shapeOut := Function.update t.shape axis 1
  let out : Tensor α := zerosT shapeOut
  match axis with
  | ⟨0, _⟩ => rsCase t 1 (rsCase t 0 out)
  | ⟨1, _⟩ => rsCase t 1 out
  | ⟨2, _⟩ => rsCase t 2 out
  | ⟨3, _⟩ => rsCase t 3 out
  | ⟨4, _⟩ => rsCase t 4 out
  | ⟨n + 5, h⟩ => absurd h (by omega)

/-- `Tensor::reduce_mean(axis) = reduce_sum(axis) / shape[axis]`. -/
def reduceMean (t : Tensor ℚ) (axis : Fin 5) : Tensor ℚ :=
  scalarDiv (reduceSum t axis) ((t.shape axis : ℚ))

/-- The `(pk, pl)` window offsets of `__pooling_`, in loop order. -/
def poolWindow (width : Nat) : List (Nat × Nat) :=
  (List.range width).flatMap fun pk => (List.range width).map fun pl => (pk, pl)

/-- `Tensor::__pooling_(width, func)`: output dims `⌊w/width⌋ × ⌊h/width⌋`;
each output cell starts from the window's top-left element and then folds
`func` over all `width × width` window elements (the top-left included again). -/
def pooling [Inhabited α] [Zero α] (t : Tensor α) (width : Nat) (f : α → α → α) : Tensor α :=
  let sz := mk5 (t.shape 0) (t.shape 1) (t.shape 2 / width) (t.shape 3 / width) (t.shape 4)
  let out : Tensor α := zerosT sz
  foreachAssign out fun tp =>
    (poolWindow width).foldl
      (fun v pq =>
        f v (t.atT (mk5 (tp 0) (tp 1) (tp 2 * width + pq.1) (tp 3 * width + pq.2) (tp 4))))
      (t.atT (mk5 (tp 0) (tp 1) (tp 2 * width) (tp 3 * width) (tp 4)))

/-- `Tensor::max_pooling(width)`. -/
def maxPooling (t : Tensor ℚ) (width : Nat) : Tensor ℚ :=
  pooling t width fun a b => if a > b then a else b

/-- `Tensor::min_pooling(width)`. -/
def minPooling (t : Tensor ℚ) (width : Nat) : Tensor ℚ :=
  pooling t width fun a b => if a < b then a else b

/-- `Tensor::avg_pooling(width)`: sum-pool then divide by `width*width`. -/
def avgPooling (t : Tensor ℚ) (width : Nat) : Tensor ℚ :=
  scalarDiv (pooling t width fun a b => a + b) ((width * width : Nat) : ℚ)

/-- The `subs` array of `Tensor::permute`: start from `{0,0,0,0,0}` and
assign `subs[order[t]] = component t` for `t = 0..4`. -/
def subsOf (ord : Fin 5 → Fin 5) (tp : Fin 5 → Nat) : Fin 5 → Nat :=
  (List.finRange 5).foldl (fun s i => Function.update s (ord i) (tp i)) fun _ => 0

/-- `Tensor::permute(order)`: output shape `size[i] = shape[order[i]]`,
output element at `tp` read from the input at `subs`. -/
def permute [Inhabited α] [Zero α] (t : Tensor α) (ord : Fin 5 → Fin 5) : Tensor α :=
  let shapeOut : Fin 5 → Nat := fun i => t.shape (ord i)
  let out : Tensor α := zerosT shapeOut
  foreachAssign out fun tp => t.atT (subsOf ord tp)

/-- `Tensor::operator==`: `result` starts `true` and is cleared whenever an
element's absolute difference exceeds `10e-6` (that is, 1e-5). -/
def tensorEqB (t a : Tensor ℚ) : Bool :=
  (List.range (scount t.shape)).foldl
    (fun r i => if |t.buf i - a.buf i| > 10 / 1000000 then false else r) true

/-- `__sigmoid_(x) = 1 / (1 + exp(x))` from `tensor.h`. -/
noncomputable def sigmoidS (x : ℝ) : ℝ := 1 / (1 + Real.exp x)

/-- `Tensor::sigmoid()`: elementwise `__sigmoid_`. -/
noncomputable def sigmoidT (t : Tensor ℝ) : Tensor ℝ := elemAssignNew t sigmoidS

end Tensor

open Tensor

theorem foreachAssign_shape (t : Tensor α) (f : (Fin 5 → Nat) → α) :
    (foreachAssign t f).shape = t.shape := rfl

theorem foreachAssign_atT (t : Tensor α) (f : (Fin 5 → Nat) → α) (tp : Fin 5 → Nat)
    (h : inRange t.shape tp) : (foreachAssign t f).atT tp = f tp := by
  have hnd : ((tuples t.shape).map (sub2ind t.shape)).Nodup := by
    rw [map_sub2ind_tuples]; exact List.nodup_range _
  exact foldl_update_mem (sub2ind t.shape) f (tuples t.shape) t.buf hnd tp (mem_tuples.2 h)

theorem foreachElemAssign_buf (t : Tensor α) (f : Nat → α) (i : Nat)
    (h : i < scount t.shape) : (foreachElemAssign t f).buf i = f i := by
  have hnd : ((List.range (scount t.shape)).map (fun i : Nat => i)).Nodup := by
    simpa using List.nodup_range (scount t.shape)
  exact foldl_update_mem (fun i : Nat => i) f (List.range (scount t.shape)) t.buf hnd i
    (List.mem_range.2 h)

theorem elemAssignNew_buf [Inhabited α] (t : Tensor α) (g : α → α) (i : Nat)
    (h : i < scount t.shape) : (elemAssignNew t g).buf i = g (t.buf i) :=
  foreachElemAssign_buf (alloc t.shape) (fun i => g (t.buf i)) i h

theorem zerosT_buf [Inhabited α] [Zero α] (s : Fin 5 → Nat) (i : Nat) (h : i < scount s) :
    (zerosT (α := α) s).buf i = 0 :=
  foreachElemAssign_buf (alloc s) (fun _ => (0 : α)) i h

/-! ## Graph model (`graph.h`)

Nodes are heap objects linked by raw pointers; an `Operation` holds its
`input_nodes`.  Since `Graph::collect` and `Session::run` use no visited
set, a traversal from the root behaves exactly like a traversal of the
pointer graph's tree unfolding, so a node term is modelled as a tree whose
`Nat` label plays the role of the pointer identity: two subterms with the
same id stand for the same heap node reached along two paths. -/

/-- `enum NodeType`. -/
inductive NodeType where
  | VARIABLE
  | PLACEHOLDER
  | OPERATION
deriving DecidableEq

/-- A `Node<T>*` reachable from a root, unfolded along `input_nodes` edges.
`V` is the payload carried by a `Variable` (its value tensor). -/
inductive GNode (V : Type) where
  | placeholder (id : Nat)
  | variable (id : Nat) (value : V)
  | operation (id : Nat) (inputs : List (GNode V))

/-- The pointer identity of a node. -/
def gid : GNode V → Nat
  | .placeholder id => id
  | .variable id _ => id
  | .operation id _ => id

/-- `Node::getNodeType()`. -/
def kindOf : GNode V → NodeType
  | .placeholder _ => .PLACEHOLDER
  | .variable _ _ => .VARIABLE
  | .operation _ _ => .OPERATION

/-- `Operation::input_nodes` (empty for the other node kinds). -/
def inputsOf : GNode V → List (GNode V)
  | .operation _ ins => ins
  | _ => []

/-- The three vectors of `Graph`: `placeholders`, `variables`, `operations`. -/
structure CState (V : Type) where
  placeholders : List (GNode V)
  vars : List (GNode V)
  operations : List (GNode V)

def emptyState : CState V := ⟨[], [], []⟩

/-- Componentwise append of `Graph` states. -/
def sApp (a b : CState V) : CState V :=
  ⟨a.placeholders ++ b.placeholders, a.vars ++ b.vars, a.operations ++ b.operations⟩

mutual
/-- `Graph::collect(root)`: push placeholders/variables, and for operations
first recurse into every input (in order) and then push the operation. -/
def collectN : GNode V → CState V → CState V
  | .placeholder id, st => { st with placeholders := st.placeholders ++ [.placeholder id] }
  | .variable id v, st => { st with vars := st.vars ++ [.variable id v] }
  | .operation id ins, st =>
    let st' := collectL ins st
    { st' with operations := st'.operations ++ [.operation id ins] }

/-- The `for (iter = input_nodes.begin(); ...) collect(*iter)` loop. -/
def collectL : List (GNode V) → CState V → CState V
  | [], st => st
  | n :: ns, st => collectL ns (collectN n st)
end

/-- The contribution of one subtree to the collection. -/
def postN (n : GNode V) : CState V := collectN n emptyState

/-- The contribution of a list of subtrees to the collection. -/
def postL (l : List (GNode V)) : CState V := collectL l emptyState

mutual
/-- The number of occurrences (= root-to-node paths) of id `x` in a tree. -/
def occN : GNode V → Nat → Nat
  | .placeholder id, x => if id = x then 1 else 0
  | .variable id _, x => if id = x then 1 else 0
  | .operation id ins, x => occL ins x + (if id = x then 1 else 0)

def occL : List (GNode V) → Nat → Nat
  | [], _ => 0
  | n :: ns, x => occN n x + occL ns x
end

/-- Total number of occurrences of id `x` across the three collected lists. -/
def countAll (x : Nat) (st : CState V) : Nat :=
  (st.placeholders.map gid).count x + (st.vars.map gid).count x
    + (st.operations.map gid).count x

/-- Every operation in the list comes after all of its operation inputs:
scanning left to right with the set `seen` of already-listed ids (the ids
in `seen0` counting as listed), each operation's operation-kind inputs must
already have been listed. -/
def OpsAfterInputs : List (GNode V) → List Nat → Prop
  | [], _ => True
  | o :: rest, seen =>
    (∀ inp ∈ inputsOf o, kindOf inp = .OPERATION → gid inp ∈ seen) ∧
      OpsAfterInputs rest (seen ++ [gid o])

/-- Placeholder and variable inputs of every collected operation appear in
the `placeholders` resp. `variables` lists. -/
def PVOk (st : CState V) : Prop :=
  ∀ o ∈ st.operations, ∀ inp ∈ inputsOf o,
    (kindOf inp = .PLACEHOLDER → gid inp ∈ st.placeholders.map gid) ∧
    (kindOf inp = .VARIABLE → gid inp ∈ st.vars.map gid)

/-- The ambient data `Session::run` consumes: the operation catalog's
`compute`, the `feed_dict`, and the default tensor that `map::operator[]`
produces for a missing key. -/
structure RunEnv (V : Type) where
  compute : Nat → List (Option V) → V
  feed : Nat → Option V
  dflt : V

/-- The loop body of `Session::run` over a list of nodes: the `switch` on
`getNodeType()`.  `out` is the map of cached per-node outputs (`none` =
the default-constructed `Tensor` every node starts with). -/
def runOps (env : RunEnv V) (ops : List (GNode V)) (out : Nat → Option V) :
    Nat → Option V :=
  ops.foldl
    (fun out n =>
      match n with
      | .placeholder id => Function.update out id (some ((env.feed id).getD env.dflt))
      | .variable id v => Function.update out id (some v)
      | .operation id ins =>
        Function.update out id (some (env.compute id (ins.map fun i => out (gid i)))))
    out

/-- `Session::run(feed_dict)`: the constructor collects the graph, and `run`
iterates over `graph.getOperations()` — the `operations` vector only. -/
def sessionRun (env : RunEnv V) (root : GNode V) : Nat → Option V :=
  runOps env (collectN root emptyState).operations fun _ => none

/-- `Node<T>::backward()` as a call trace: visiting a node invokes, for each
consumer in order, that consumer's own `backward()` recursively (there is no
memoisation).  `fuel` bounds the recursion depth; every node's consumers
have strictly smaller ids in the graphs considered, so any `fuel` above the
root id is never exhausted (see `backTraceF_stable`). -/
def backTraceF (cons : Nat → List Nat) : Nat → Nat → List Nat
  | 0, n => [n]
  | fuel + 1, n => n :: (cons n).flatMap (backTraceF cons fuel)

/-- With consumers of strictly smaller id, the trace is independent of the
fuel once the fuel exceeds the start node's id. -/
theorem backTraceF_stable (cons : Nat → List Nat)
    (wf : ∀ n, ∀ c ∈ cons n, c < n) :
    ∀ fuel₁ fuel₂ n, n < fuel₁ → n < fuel₂ →
      backTraceF cons fuel₁ n = backTraceF cons fuel₂ n := by
  intro fuel₁
  induction fuel₁ with
  | zero => intro fuel₂ n h₁ _; omega
  | succ f ih =>
    intro fuel₂ n h₁ h₂
    match fuel₂ with
    | 0 => omega
    | f₂ + 1 =>
      simp only [backTraceF, List.cons.injEq, true_and]
      refine List.flatMap_congr fun c hc => ?_
      have hcn : c < n := wf n c hc
      exact ih f₂ c (by omega) (by omega)

/-- The diamond of the spec's scenario: `X` (id 3) is consumed by `A` (id 1)
and `B` (id 2), both consumed by the summing root `S` (id 0). -/
def diamondCons : Nat → List Nat := fun n =>
  if n = 3 then [1, 2] else if n = 1 then [0] else if n = 2 then [0] else []

theorem sApp_assoc (a b c : CState V) : sApp (sApp a b) c = sApp a (sApp b c) := by
  simp [sApp, List.append_assoc]

theorem sApp_empty_left (a : CState V) : sApp emptyState a = a := by
  cases a; simp [sApp, emptyState]

theorem sApp_placeholders (a b : CState V) :
    (sApp a b).placeholders = a.placeholders ++ b.placeholders := rfl

theorem sApp_vars (a b : CState V) : (sApp a b).vars = a.vars ++ b.vars := rfl

theorem sApp_operations (a b : CState V) :
    (sApp a b).operations = a.operations ++ b.operations := rfl

theorem postN_operation (id : Nat) (ins : List (GNode V)) :
    postN (.operation id ins) =
      { postL ins with operations := (postL ins).operations ++ [.operation id ins] } := rfl

mutual
/-- `collect` only appends: collecting into a state prepends that state. -/
theorem collectN_append : ∀ (n : GNode V) (st : CState V), collectN n st = sApp st (postN n)
  | .placeholder id, st => by
    simp [collectN, postN, emptyState, sApp]
  | .variable id v, st => by
    simp [collectN, postN, emptyState, sApp]
  | .operation id ins, st => by
    have hL := collectL_append ins
    rw [show collectN (.operation id ins) st
        = { collectL ins st with
            operations := (collectL ins st).operations ++ [.operation id ins] } from rfl,
      hL st, postN_operation]
    cases st
    simp [sApp, List.append_assoc]

theorem collectL_append : ∀ (l : List (GNode V)) (st : CState V), collectL l st = sApp st (postL l)
  | [], st => by
    cases st; simp [collectL, postL, emptyState, sApp]
  | n :: ns, st => by
    have hN := collectN_append n
    have hL := collectL_append ns
    calc collectL (n :: ns) st = collectL ns (collectN n st) := rfl
      _ = sApp (collectN n st) (postL ns) := hL _
      _ = sApp (sApp st (postN n)) (postL ns) := by rw [hN st]
      _ = sApp st (sApp (postN n) (postL ns)) := sApp_assoc st (postN n) (postL ns)
      _ = sApp st (postL (n :: ns)) := by
          rw [show postL (n :: ns) = collectL ns (collectN n emptyState) from rfl, hL _,
            hN _, sApp_empty_left]
end

theorem postL_cons (n : GNode V) (ns : List (GNode V)) :
    postL (n :: ns) = sApp (postN n) (postL ns) := by
  rw [show postL (n :: ns) = collectL ns (collectN n emptyState) from rfl,
    collectL_append ns _, collectN_append n _, sApp_empty_left]

theorem countAll_sApp (x : Nat) (a b : CState V) :
    countAll x (sApp a b) = countAll x a + countAll x b := by
  simp [countAll, sApp, List.count_append]
  omega

mutual
/-- Each id is collected exactly once per subterm occurrence. -/
theorem countAll_postN : ∀ (n : GNode V) (x : Nat), countAll x (postN n) = occN n x
  | .placeholder id, x => by
    simp only [postN, collectN, emptyState, countAll, occN, gid, List.nil_append,
      List.map_cons, List.map_nil, List.count_cons, List.count_nil, beq_iff_eq]
    by_cases hx : id = x <;> simp [hx]
  | .variable id v, x => by
    simp only [postN, collectN, emptyState, countAll, occN, gid, List.nil_append,
      List.map_cons, List.map_nil, List.count_cons, List.count_nil, beq_iff_eq]
    by_cases hx : id = x <;> simp [hx]
  | .operation id ins, x => by
    have hL := countAll_postL ins x
    rw [postN_operation]
    simp only [countAll, List.map_append, List.count_append, occN, gid, List.map_cons,
      List.map_nil, List.count_cons, List.count_nil, beq_iff_eq] at *
    by_cases hx : id = x <;> simp only [hx, if_true, if_false] <;> omega

theorem countAll_postL : ∀ (l : List (GNode V)) (x : Nat), countAll x (postL l) = occL l x
  | [], x => by simp [postL, collectL, emptyState, countAll, occL]
  | n :: ns, x => by
    have hN := countAll_postN n x
    have hL := countAll_postL ns x
    rw [postL_cons, countAll_sApp, hN, hL, occL]
end

theorem opsAfter_append (ys : List (GNode V)) :
    ∀ (xs : List (GNode V)) (seen : List Nat),
      OpsAfterInputs (xs ++ ys) seen ↔
        OpsAfterInputs xs seen ∧ OpsAfterInputs ys (seen ++ xs.map gid) := by
  intro xs
  induction xs with
  | nil => intro seen; simp [OpsAfterInputs]
  | cons o rest ih =>
    intro seen
    rw [List.cons_append]
    show (_ ∧ OpsAfterInputs (rest ++ ys) (seen ++ [gid o])) ↔ _
    rw [ih (seen ++ [gid o])]
    rw [show OpsAfterInputs (o :: rest) seen
        = ((∀ inp ∈ inputsOf o, kindOf inp = .OPERATION → gid inp ∈ seen) ∧
           OpsAfterInputs rest (seen ++ [gid o])) from rfl]
    rw [and_assoc]
    rw [show seen ++ [gid o] ++ rest.map gid = seen ++ (o :: rest).map gid by
      simp [List.append_assoc]]

theorem opsAfter_mono :
    ∀ (l : List (GNode V)) (seen seen' : List Nat), seen ⊆ seen' →
      OpsAfterInputs l seen → OpsAfterInputs l seen' := by
  intro l
  induction l with
  | nil => intro _ _ _ _; trivial
  | cons o rest ih =>
    intro seen seen' hsub h
    refine ⟨fun inp hinp hk => hsub (h.1 inp hinp hk), ?_⟩
    refine ih _ _ (fun x hx => ?_) h.2
    rcases List.mem_append.1 hx with hx | hx
    · exact List.mem_append.2 (Or.inl (hsub hx))
    · exact List.mem_append.2 (Or.inr hx)

/-- A collected node's id lands in the list matching its kind. -/
theorem gid_mem_postN (n : GNode V) :
    (kindOf n = .OPERATION → gid n ∈ (postN n).operations.map gid) ∧
    (kindOf n = .PLACEHOLDER → gid n ∈ (postN n).placeholders.map gid) ∧
    (kindOf n = .VARIABLE → gid n ∈ (postN n).vars.map gid) := by
  match n with
  | .placeholder id =>
    refine ⟨fun h => by simp [kindOf] at h, fun _ => ?_, fun h => by simp [kindOf] at h⟩
    simp [postN, collectN, emptyState, gid]
  | .variable id v =>
    refine ⟨fun h => by simp [kindOf] at h, fun h => by simp [kindOf] at h, fun _ => ?_⟩
    simp [postN, collectN, emptyState, gid]
  | .operation id ins =>
    refine ⟨fun _ => ?_, fun h => by simp [kindOf] at h, fun h => by simp [kindOf] at h⟩
    rw [postN_operation]
    simp [gid]

/-- Every member of a collected input list has its id in the list matching
its kind. -/
theorem gid_mem_postL (inp : GNode V) :
    ∀ (l : List (GNode V)), inp ∈ l →
      (kindOf inp = .OPERATION → gid inp ∈ (postL l).operations.map gid) ∧
      (kindOf inp = .PLACEHOLDER → gid inp ∈ (postL l).placeholders.map gid) ∧
      (kindOf inp = .VARIABLE → gid inp ∈ (postL l).vars.map gid) := by
  intro l
  induction l with
  | nil => intro h; exact absurd h (List.not_mem_nil inp)
  | cons n ns ih =>
    intro hmem
    rw [postL_cons]
    rcases List.mem_cons.1 hmem with rfl | hmem
    · have h := gid_mem_postN inp
      refine ⟨fun hk => ?_, fun hk => ?_, fun hk => ?_⟩
      · rw [sApp_operations, List.map_append]
        exact List.mem_append.2 (Or.inl (h.1 hk))
      · rw [sApp_placeholders, List.map_append]
        exact List.mem_append.2 (Or.inl (h.2.1 hk))
      · rw [sApp_vars, List.map_append]
        exact List.mem_append.2 (Or.inl (h.2.2 hk))
    · have h := ih hmem
      refine ⟨fun hk => ?_, fun hk => ?_, fun hk => ?_⟩
      · rw [sApp_operations, List.map_append]
        exact List.mem_append.2 (Or.inr (h.1 hk))
      · rw [sApp_placeholders, List.map_append]
        exact List.mem_append.2 (Or.inr (h.2.1 hk))
      · rw [sApp_vars, List.map_append]
        exact List.mem_append.2 (Or.inr (h.2.2 hk))

mutual
/-- In the collected `operations` list, every operation comes after all of
its operation inputs. -/
theorem opsAfter_postN : ∀ (n : GNode V), OpsAfterInputs (postN n).operations []
  | .placeholder id => by simp [postN, collectN, emptyState, OpsAfterInputs]
  | .variable id v => by simp [postN, collectN, emptyState, OpsAfterInputs]
  | .operation id ins => by
    have hL := opsAfter_postL ins
    rw [postN_operation]
    show OpsAfterInputs ((postL ins).operations ++ [GNode.operation id ins]) []
    rw [opsAfter_append]
    refine ⟨hL, ?_, trivial⟩
    intro inp hinp hk
    have h := (gid_mem_postL inp ins (by simpa [inputsOf] using hinp)).1 hk
    simpa using h

theorem opsAfter_postL : ∀ (l : List (GNode V)), OpsAfterInputs (postL l).operations []
  | [] => by simp [postL, collectL, emptyState, OpsAfterInputs]
  | n :: ns => by
    have hN := opsAfter_postN n
    have hL := opsAfter_postL ns
    rw [postL_cons]
    show OpsAfterInputs ((postN n).operations ++ (postL ns).operations) []
    rw [opsAfter_append]
    exact ⟨hN, opsAfter_mono _ [] _ (List.nil_subset _) hL⟩
end

mutual
/-- Placeholder and variable inputs of every collected operation appear in
the collected `placeholders` resp. `variables` lists. -/
theorem pvOk_postN : ∀ (n : GNode V), PVOk (postN n)
  | .placeholder id => by
    intro o ho; simp [postN, collectN, emptyState] at ho
  | .variable id v => by
    intro o ho; simp [postN, collectN, emptyState] at ho
  | .operation id ins => by
    have hL := pvOk_postL ins
    intro o ho inp hinp
    rw [postN_operation] at ho
    simp only [List.mem_append, List.mem_singleton] at ho
    rw [postN_operation]
    rcases ho with ho | rfl
    · exact hL o ho inp hinp
    · have h := gid_mem_postL inp ins (by simpa [inputsOf] using hinp)
      exact ⟨h.2.1, h.2.2⟩

theorem pvOk_postL : ∀ (l : List (GNode V)), PVOk (postL l)
  | [] => by intro o ho; simp [postL, collectL, emptyState] at ho
  | n :: ns => by
    have hN := pvOk_postN n
    have hL := pvOk_postL ns
    intro o ho inp hinp
    rw [postL_cons] at ho ⊢
    rw [sApp_operations] at ho
    rcases List.mem_append.1 ho with ho | ho
    · have h := hN o ho inp hinp
      refine ⟨fun hk => ?_, fun hk => ?_⟩
      · rw [sApp_placeholders, List.map_append]
        exact List.mem_append.2 (Or.inl (h.1 hk))
      · rw [sApp_vars, List.map_append]
        exact List.mem_append.2 (Or.inl (h.2 hk))
    · have h := hL o ho inp hinp
      refine ⟨fun hk => ?_, fun hk => ?_⟩
      · rw [sApp_placeholders, List.map_append]
        exact List.mem_append.2 (Or.inr (h.1 hk))
      · rw [sApp_vars, List.map_append]
        exact List.mem_append.2 (Or.inr (h.2 hk))
end

/-! ## Concrete instances used by the claims -/

theorem diamondCons_wf : ∀ n, ∀ c ∈ diamondCons n, c < n := by
  intro n c hc
  unfold diamondCons at hc
  split_ifs at hc with h1 h2 h3
  · subst h1
    simp only [List.mem_cons, List.not_mem_nil, or_false] at hc
    rcases hc with rfl | rfl <;> omega
  · subst h2
    simp only [List.mem_cons, List.not_mem_nil, or_false] at hc
    subst hc; omega
  · subst h3
    simp only [List.mem_cons, List.not_mem_nil, or_false] at hc
    subst hc; omega
  · exact absurd hc (List.not_mem_nil c)

/-- Fuel 4 fully explores the diamond: any larger fuel gives the same trace. -/
theorem diamond_trace_fuel_irrelevant (fuel : Nat) (h : 3 < fuel) :
    backTraceF diamondCons fuel 3 = backTraceF diamondCons 4 3 :=
  backTraceF_stable diamondCons diamondCons_wf fuel 4 3 h (by omega)

/-- `compute` used in concrete `Session::run` scenarios: the sum of the
cached input outputs, a missing (never-computed) input counting as 0. -/
def demoCompute : Nat → List (Option ℤ) → ℤ := fun _ ins => (ins.map fun o => o.getD 0).sum

/-- Placeholder node `p` (id 0). -/
def pX : GNode ℤ := .placeholder 0

/-- Operation node (id 1) consuming the placeholder. -/
def oS : GNode ℤ := .operation 1 [pX]

/-- The feed binds the placeholder's id 0 to 42. -/
def envFed : RunEnv ℤ := ⟨demoCompute, fun i => if i = 0 then some 42 else none, 0⟩

/-- An empty feed: no placeholder is bound. -/
def envEmpty : RunEnv ℤ := ⟨demoCompute, fun _ => none, 0⟩

/-- The diamond graph: placeholder `X` (id 0) is an input of operations `A`
(id 1) and `B` (id 2), both inputs of `S` (id 3). -/
def dX : GNode ℤ := .placeholder 0

def dA : GNode ℤ := .operation 1 [dX]

def dB : GNode ℤ := .operation 2 [dX]

def dS : GNode ℤ := .operation 3 [dA, dB]

/-- Shape (1,2,1,1,1), buffer `[1, 2]`. -/
def exC6 : Tensor ℤ := ⟨mk5 1 2 1 1 1, fun i => if i = 0 then 1 else if i = 1 then 2 else 0⟩

/-- Shape (1,1,2,2,1), window `[[1,0],[0,0]]`. -/
def exC7 : Tensor ℚ := ⟨mk5 1 1 2 2 1, fun i => if i = 0 then 1 else 0⟩

/-- Shape (1,1,1,1,2), buffer `[5, 7]`. -/
def cA2 : Tensor ℚ := ⟨mk5 1 1 1 1 2, fun i => if i = 0 then 5 else if i = 1 then 7 else 0⟩

/-- Shape (1,1,1,1,1), buffer `[3]`. -/
def cB2 : Tensor ℚ := ⟨mk5 1 1 1 1 1, fun _ => 3⟩

/-- Scalar tensor with value 2. -/
def wA2 : Tensor ℚ := ⟨mk5 1 1 1 1 1, fun _ => 2⟩

/-- Scalar tensor with value 3. -/
def wB2 : Tensor ℚ := ⟨mk5 1 1 1 1 1, fun _ => 3⟩

/-- The all-zero index tuple. -/
def wtp : Fin 5 → Nat := mk5 0 0 0 0 0

/-- Scalar tensor with value 0. -/
def cEa : Tensor ℚ := ⟨mk5 1 1 1 1 1, fun _ => 0⟩

/-- Scalar tensor with value 5e-6: within the code's 1e-5 tolerance but
outside the spec's 1e-6. -/
def cEb : Tensor ℚ := ⟨mk5 1 1 1 1 1, fun _ => 1 / 200000⟩

/-- Shape (1,1,2,1,3) with pairwise-distinct entries. -/
def wT9 : Tensor ℚ := ⟨mk5 1 1 2 1 3, fun i => (i : ℚ)⟩

/-- The permutation swapping axes 2 and 3 (its own inverse). -/
def swapOrd : Fin 5 → Fin 5 := fun a =>
  match a with
  | ⟨0, _⟩ => 0
  | ⟨1, _⟩ => 1
  | ⟨2, _⟩ => 3
  | ⟨3, _⟩ => 2
  | ⟨4, _⟩ => 4

/-- Scalar real tensor with value 0. -/
noncomputable def wT10 : Tensor ℝ := ⟨mk5 1 1 1 1 1, fun _ => 0⟩

/-! ## Claims -/

/-- C1: the claim says each node's gradient is computed and memoised exactly
once per backward pass even with multiple consumers.  In the code,
`Node::backward` recomputes every consumer's backward on each call with no
memoisation: in the diamond (X consumed by A and B, both consumed by S),
the backward recursion started at X invokes S's backward twice. -/
theorem C1_backward_recomputes_shared_consumer :
    (backTraceF diamondCons 4 3).count 0 = 2 ∧ (2 : Nat) ≠ 1 := by
  constructor
  · decide
  · decide

/-- C3: the claim says `Session.run` visits all collected nodes and sets
placeholder outputs from the feed.  In the code, `run` iterates only over
`graph.getOperations()`, so the placeholder's output is never written even
though the feed binds it; the operation computes from the unset input. -/
theorem C3_run_skips_placeholders :
    sessionRun envFed oS 0 = none ∧ sessionRun envFed oS 1 = some 0 := by
  constructor
  · rfl
  · rfl

/-- C5: the claim says `Session.run` fails with UnboundPlaceholderError when
a reachable placeholder is missing from the feed.  The code has no such
error: with an empty feed, `run` completes normally, never consulting the
feed (the placeholder branch is dead code, and even it would silently
default-construct a missing entry). -/
theorem C5_run_no_unbound_placeholder_check :
    sessionRun envEmpty oS 1 = some 0 ∧ sessionRun envEmpty oS 0 = none := by
  constructor
  · rfl
  · rfl

/-- C4 counterexample: in the diamond, the placeholder X (id 0) is collected
once per path — twice, not exactly once as the claim states. -/
theorem C4_counterexample_diamond_collected_twice :
    ((collectN dS emptyState).placeholders.map gid).count 0 = 2 ∧ (2 : Nat) ≠ 1 := by
  constructor
  · rfl
  · decide

/-- C4 amended: `Graph::collect` has no visited set, so each reachable node
appears once per distinct root-to-node path (`occN` counts subterm
occurrences of an id in the unfolded pointer graph); every operation still
appears in the `operations` list after all of its operation inputs, and its
placeholder/variable inputs appear in their respective lists. -/
theorem C4_collect_once_per_path_after_inputs {V : Type} (root : GNode V) :
    (∀ x : Nat, countAll x (collectN root emptyState) = occN root x) ∧
    OpsAfterInputs (collectN root emptyState).operations [] ∧
    PVOk (collectN root emptyState) :=
  ⟨fun x => countAll_postN root x, opsAfter_postN root, pvOk_postN root⟩

/-- C6: `reduce_sum`'s `case 0` is missing its `break` and falls through
into the axis-1 accumulation.  On the tensor of shape (1,2,1,1,1) with
buffer `[1, 2]`, `reduce_sum(0)` should be the identity `[1, 2]` but the
code produces `[4, 2]`. -/
theorem C6_reduce_sum_axis0_fallthrough :
    (reduceSum exC6 0).atT (mk5 0 0 0 0 0) = 4 ∧
    (reduceSum exC6 0).atT (mk5 0 1 0 0 0) = 2 ∧
    exC6.atT (mk5 0 0 0 0 0) = 1 ∧ exC6.atT (mk5 0 1 0 0 0) = 2 := by
  refine ⟨?_, ?_, ?_, ?_⟩ <;> decide

/-- C7: `__pooling_` seeds the fold with the window's top-left element and
then folds over the whole window, so `avg_pooling` double-counts the
top-left element.  On the window `[[1,0],[0,0]]` with width 2 the window sum
is 1, but `avg_pooling * width²` gives 2. -/
theorem C7_avg_pooling_double_counts_corner :
    (avgPooling exC7 2).buf 0 * (2 * 2 : ℚ) = 2 ∧
    exC7.buf 0 + exC7.buf 1 + exC7.buf 2 + exC7.buf 3 = 1 ∧ (2 : ℚ) ≠ 1 := by
  have hpool : (pooling exC7 2 fun a b => a + b).atT wtp
      = exC7.atT (mk5 0 0 0 0 0) + exC7.atT (mk5 0 0 0 0 0) + exC7.atT (mk5 0 0 0 1 0)
        + exC7.atT (mk5 0 0 1 0 0) + exC7.atT (mk5 0 0 1 1 0) :=
    foreachAssign_atT (zerosT (mk5 1 1 1 1 1)) _ wtp (by decide)
  have havg : (avgPooling exC7 2).buf 0
      = (pooling exC7 2 fun a b => a + b).buf 0 / ((2 * 2 : Nat) : ℚ) :=
    elemAssignNew_buf (pooling exC7 2 fun a b => a + b) (fun x => x / ((2 * 2 : Nat) : ℚ)) 0
      (by decide)
  have hbuf : (pooling exC7 2 fun a b => a + b).buf 0
      = (pooling exC7 2 fun a b => a + b).atT wtp := rfl
  refine ⟨?_, ?_, ?_⟩
  · rw [havg, hbuf, hpool]
    norm_num [show exC7.atT (mk5 0 0 0 0 0) = 1 from rfl,
      show exC7.atT (mk5 0 0 0 1 0) = 0 from rfl,
      show exC7.atT (mk5 0 0 1 0 0) = 0 from rfl,
      show exC7.atT (mk5 0 0 1 1 0) = 0 from rfl]
  · norm_num [show exC7.buf 0 = 1 from rfl, show exC7.buf 1 = 0 from rfl,
      show exC7.buf 2 = 0 from rfl, show exC7.buf 3 = 0 from rfl]
  · norm_num

theorem fea_shape (A B : Tensor ℚ) (f : ℚ → ℚ → ℚ) : (fea A B f).shape = B.shape := by
  unfold fea
  rcases firstDiffAxis A.shape B.shape with _ | ⟨v, hv⟩
  · rfl
  · interval_cases v <;> rfl

theorem fea_atT_none (A B : Tensor ℚ) (f : ℚ → ℚ → ℚ) (tp : Fin 5 → Nat)
    (hB : inRange B.shape tp) (hfd : firstDiffAxis A.shape B.shape = none) :
    (fea A B f).atT tp = f (A.atT tp) (B.atT tp) := by
  unfold fea
  rw [hfd]
  exact foreachAssign_atT (Tensor.alloc B.shape) _ tp hB

theorem fea_atT_some (A B : Tensor ℚ) (f : ℚ → ℚ → ℚ) (tp : Fin 5 → Nat)
    (hB : inRange B.shape tp) (a : Fin 5) (hfd : firstDiffAxis A.shape B.shape = some a) :
    (fea A B f).atT tp = f (A.atT tp) (B.atT (Function.update tp a 0)) := by
  unfold fea
  rw [hfd]
  rcases a with ⟨v, hv⟩
  interval_cases v <;> exact foreachAssign_atT (Tensor.alloc B.shape) _ tp hB

/-- C2 amended: `__foreach_assign_` performs no shape check and never fails;
the output always takes the right-hand operand's shape; on the first
differing axis (if any) the right-hand operand is read at index 0 while the
left operand is read at the full output position; with no differing axis the
operation is plain elementwise.  (In-range hypotheses keep both C++ reads
inside their buffers.) -/
theorem C2_foreach_assign_spec (A B : Tensor ℚ) (f : ℚ → ℚ → ℚ) (tp : Fin 5 → Nat)
    (hB : inRange B.shape tp) (hA : inRange A.shape tp) :
    (fea A B f).shape = B.shape ∧
    (firstDiffAxis A.shape B.shape = none →
      (fea A B f).atT tp = f (A.atT tp) (B.atT tp)) ∧
    (∀ a : Fin 5, firstDiffAxis A.shape B.shape = some a →
      (fea A B f).atT tp = f (A.atT tp) (B.atT (Function.update tp a 0))) :=
  ⟨fea_shape A B f, fun h => fea_atT_none A B f tp hB h,
   fun a ha => fea_atT_some A B f tp hB a ha⟩

theorem C2_foreach_assign_spec_witness :
    inRange wB2.shape wtp ∧ inRange wA2.shape wtp ∧
      ((fea wA2 wB2 fun a b => a + b).shape = wB2.shape ∧
       (firstDiffAxis wA2.shape wB2.shape = none →
         (fea wA2 wB2 fun a b => a + b).atT wtp = wA2.atT wtp + wB2.atT wtp) ∧
       (∀ a : Fin 5, firstDiffAxis wA2.shape wB2.shape = some a →
         (fea wA2 wB2 fun a b => a + b).atT wtp
           = wA2.atT wtp + wB2.atT (Function.update wtp a 0))) :=
  ⟨by decide, by decide,
   C2_foreach_assign_spec wA2 wB2 (fun a b => a + b) wtp (by decide) (by decide)⟩

/-- C2 counterexample: adding the shape-(1,1,1,1,2) tensor `[5,7]` and the
shape-(1,1,1,1,1) tensor `[3]` does not fail and does not give the larger
operand's shape: the result has the right operand's shape (axis 4 has size
1, not 2) and value 8 = 5 + 3. -/
theorem C2_counterexample_broadcast_shape :
    (addT cA2 cB2).shape 4 = 1 ∧ cA2.shape 4 = 2 ∧ cB2.shape 4 = 1 ∧
      (addT cA2 cB2).atT wtp = 8 := by
  refine ⟨rfl, rfl, rfl, ?_⟩
  have h : (addT cA2 cB2).atT wtp = cA2.atT wtp + cB2.atT (Function.update wtp 4 0) :=
    fea_atT_some cA2 cB2 (fun a b => a + b) wtp (by decide) 4 rfl
  rw [h]
  norm_num [show cA2.atT wtp = 5 from rfl,
    show cB2.atT (Function.update wtp 4 0) = 3 from rfl]

theorem foldl_clear_iff {β : Type _} (p : β → Prop) [DecidablePred p] :
    ∀ (l : List β) (acc : Bool),
      (l.foldl (fun r b => if p b then false else r) acc) = true ↔
        (acc = true ∧ ∀ b ∈ l, ¬ p b) := by
  intro l
  induction l with
  | nil => intro acc; simp
  | cons x xs ih =>
    intro acc
    simp only [List.foldl_cons]
    rw [ih]
    by_cases hx : p x
    · simp [hx, List.forall_mem_cons]
    · simp [hx, List.forall_mem_cons, and_assoc]

/-- C8 amended: `operator==` returns true iff every element pair differs by
at most `10e-6` — that is 1e-5, not the claimed 1e-6. -/
theorem C8_eq_iff (t a : Tensor ℚ) (hsh : t.shape = a.shape) :
    tensorEqB t a = true ↔
      ∀ i < scount t.shape, |t.buf i - a.buf i| ≤ 10 / 1000000 := by
  unfold tensorEqB
  rw [foldl_clear_iff (fun i => |t.buf i - a.buf i| > 10 / 1000000)
    (List.range (scount t.shape)) true]
  simp [List.mem_range, not_lt]

theorem C8_eq_iff_witness :
    cEa.shape = cEa.shape ∧
      (tensorEqB cEa cEa = true ↔
        ∀ i < scount cEa.shape, |cEa.buf i - cEa.buf i| ≤ 10 / 1000000) :=
  ⟨rfl, C8_eq_iff cEa cEa rfl⟩

/-- C8 counterexample: the tensors `[0]` and `[5e-6]` compare equal under
the code (difference within 1e-5) although their difference exceeds the
claimed 1e-6 tolerance. -/
theorem C8_counterexample_tolerance :
    tensorEqB cEa cEb = true ∧ ¬ |cEa.buf 0 - cEb.buf 0| ≤ 1 / 1000000 := by
  constructor
  · rw [show tensorEqB cEa cEb
        = (List.range (scount cEa.shape)).foldl
            (fun r i => if |cEa.buf i - cEb.buf i| > 10 / 1000000 then false else r) true
        from rfl,
      foldl_clear_iff (fun i => |cEa.buf i - cEb.buf i| > 10 / 1000000)
        (List.range (scount cEa.shape)) true]
    refine ⟨rfl, fun b hb => ?_⟩
    have hb1 : b < scount cEa.shape := List.mem_range.1 hb
    have hs : scount cEa.shape = 1 := rfl
    have hb0 : b = 0 := by omega
    subst hb0
    have habs : |cEa.buf 0 - cEb.buf 0| = 1 / 200000 := by
      rw [show cEa.buf 0 - cEb.buf 0 = -(1 / 200000) by
          norm_num [show cEa.buf 0 = 0 from rfl, show cEb.buf 0 = (1 / 200000 : ℚ) from rfl],
        abs_neg, abs_of_nonneg (show (0 : ℚ) ≤ 1 / 200000 by norm_num)]
    rw [not_lt, habs]
    norm_num
  · have habs : |cEa.buf 0 - cEb.buf 0| = 1 / 200000 := by
      rw [show cEa.buf 0 - cEb.buf 0 = -(1 / 200000) by
          norm_num [show cEa.buf 0 = 0 from rfl, show cEb.buf 0 = (1 / 200000 : ℚ) from rfl],
        abs_neg, abs_of_nonneg (show (0 : ℚ) ≤ 1 / 200000 by norm_num)]
    rw [not_le, habs]
    norm_num

theorem subsOf_apply (ord : Fin 5 → Fin 5) (hinj : Function.Injective ord)
    (tp : Fin 5 → Nat) (i : Fin 5) : subsOf ord tp (ord i) = tp i := by
  have hnd : ((List.finRange 5).map ord).Nodup := (List.nodup_finRange 5).map hinj
  exact foldl_update_mem ord tp (List.finRange 5) (fun _ => 0) hnd i (List.mem_finRange i)

/-- C9: `permute(order)` followed by `permute(inverse(order))` reproduces
the original tensor exactly — the same shape and the same buffer value at
every linear position. -/
theorem C9_permute_roundtrip {α : Type} [Inhabited α] [Zero α] (t : Tensor α)
    (ord ordInv : Fin 5 → Fin 5)
    (h1 : ∀ i, ordInv (ord i) = i) (h2 : ∀ i, ord (ordInv i) = i) :
    ((t.permute ord).permute ordInv).shape = t.shape ∧
      ∀ idx, idx < scount t.shape →
        ((t.permute ord).permute ordInv).buf idx = t.buf idx := by
  have hinj1 : Function.Injective ord := fun a b hab => by
    have h := congrArg ordInv hab
    rwa [h1, h1] at h
  have hinj2 : Function.Injective ordInv := fun a b hab => by
    have h := congrArg ord hab
    rwa [h2, h2] at h
  have hsh2 : ((t.permute ord).permute ordInv).shape = t.shape := by
    funext i
    show t.shape (ord (ordInv i)) = t.shape i
    rw [h2]
  refine ⟨hsh2, fun idx hidx => ?_⟩
  obtain ⟨tp, htp, hsub⟩ := exists_tuple_of_lt hidx
  have htp2 : inRange (fun i => (t.permute ord).shape (ordInv i)) tp := by
    intro a
    show tp a < t.shape (ord (ordInv a))
    rw [h2]
    exact htp a
  have htp1 : inRange (fun i => t.shape (ord i)) fun a => tp (ord a) := fun a => htp (ord a)
  have e1 : ((t.permute ord).permute ordInv).atT tp
      = (t.permute ord).atT (subsOf ordInv tp) :=
    foreachAssign_atT (zerosT fun i => (t.permute ord).shape (ordInv i)) _ tp htp2
  have hsubs2 : subsOf ordInv tp = fun a => tp (ord a) := by
    funext a
    have h := subsOf_apply ordInv hinj2 tp (ord a)
    rwa [h1] at h
  have e2 : (t.permute ord).atT (fun a => tp (ord a))
      = t.atT (subsOf ord fun a => tp (ord a)) :=
    foreachAssign_atT (zerosT fun i => t.shape (ord i)) _ _ htp1
  have hsubs1 : subsOf ord (fun a => tp (ord a)) = tp := by
    funext a
    have h := subsOf_apply ord hinj1 (fun a => tp (ord a)) (ordInv a)
    simp only [h2] at h
    exact h
  have hidx2 : sub2ind ((t.permute ord).permute ordInv).shape tp = idx := by
    rw [hsh2, hsub]
  calc ((t.permute ord).permute ordInv).buf idx
      = ((t.permute ord).permute ordInv).atT tp := by
        show _ = ((t.permute ord).permute ordInv).buf (sub2ind _ tp)
        rw [hidx2]
    _ = (t.permute ord).atT (subsOf ordInv tp) := e1
    _ = (t.permute ord).atT fun a => tp (ord a) := by rw [hsubs2]
    _ = t.atT (subsOf ord fun a => tp (ord a)) := e2
    _ = t.atT tp := by rw [hsubs1]
    _ = t.buf idx := by
        show t.buf (sub2ind t.shape tp) = t.buf idx
        rw [hsub]

theorem C9_permute_roundtrip_witness :
    (∀ i, swapOrd (swapOrd i) = i) ∧
      ((wT9.permute swapOrd).permute swapOrd).shape = wT9.shape ∧
      ∀ idx, idx < scount wT9.shape →
        ((wT9.permute swapOrd).permute swapOrd).buf idx = wT9.buf idx := by
  refine ⟨by decide, ?_, ?_⟩
  · exact (C9_permute_roundtrip wT9 swapOrd swapOrd (by decide) (by decide)).1
  · exact (C9_permute_roundtrip wT9 swapOrd swapOrd (by decide) (by decide)).2

/-- C10: elementwise `sigmoid` computes, at every element x, the value
`1 / (1 + exp x)` — the logistic function at the negated argument — so it
is 1/2 at 0 and strictly decreasing. -/
theorem C10_sigmoid_is_reciprocal_one_plus_exp :
    (∀ (t : Tensor ℝ) (i : Nat), i < scount t.shape →
        (sigmoidT t).buf i = 1 / (1 + Real.exp (t.buf i))) ∧
      sigmoidS 0 = 1 / 2 ∧ StrictAnti sigmoidS := by
  refine ⟨fun t i h => ?_, ?_, ?_⟩
  · exact elemAssignNew_buf t sigmoidS i h
  · unfold sigmoidS
    rw [Real.exp_zero]
    norm_num
  · intro x y hxy
    unfold sigmoidS
    have hexp : Real.exp x < Real.exp y := Real.exp_lt_exp_of_lt hxy
    have hpos : (0 : ℝ) < 1 + Real.exp x := by positivity
    exact one_div_lt_one_div_of_lt hpos (by linarith)

theorem C10_sigmoid_witness :
    0 < scount wT10.shape ∧ (sigmoidT wT10).buf 0 = 1 / (1 + Real.exp (wT10.buf 0)) :=
  ⟨by decide, C10_sigmoid_is_reciprocal_one_plus_exp.1 wT10 0 (by decide)⟩

end NNVerify
